import Mathlib

/-!
Verification of the EDI `NonValidatingReader` of logward/omniparser.

Byte slices are embedded as `List Nat` (one entry per byte).  The reader's
input scanner, the split-with-escape utility (`strs.ByteSplitWithEsc` from
go-corelib) and Go's `utf8.DecodeRune` are external collaborators whose
sources are not part of the repository; they are modelled from the spec
(sections 4.A and 6) and marked as such.  Everything else is translated
directly from the source of `reader.go` (src/unnamed/part_000).
-/

namespace EdiReader

/-- Byte lists stand for Go byte slices; each entry is one byte value. -/
abbrev Bytes := List Nat

/-- Bytes of an ASCII string literal (all delimiters and sample inputs used in
the development are ASCII, where the byte value equals the code point). -/
def bytesOf (s : String) : Bytes := s.data.map Char.toNat

/-- Modelled from the spec: Go stdlib `utf8.DecodeRune` over byte lists (the Go
standard library is not part of src/).  Returns the decoded rune and its byte
size; `(0xFFFD, 0)` for empty input and `(0xFFFD, 1)` for an invalid or
truncated encoding, matching Go's `RuneError` conventions. -/
def decodeRune : Bytes → Nat × Nat
  | [] => (0xFFFD, 0)
  | b0 :: rest =>
    if b0 < 0x80 then (b0, 1)
    else if b0 < 0xC2 then (0xFFFD, 1)
    else if b0 < 0xE0 then
      match rest with
      | b1 :: _ =>
        if 0x80 ≤ b1 ∧ b1 ≤ 0xBF then ((b0 - 0xC0) * 0x40 + (b1 - 0x80), 2)
        else (0xFFFD, 1)
      | _ => (0xFFFD, 1)
    else if b0 < 0xF0 then
      match rest with
      | b1 :: b2 :: _ =>
        if (if b0 = 0xE0 then 0xA0 else 0x80) ≤ b1 ∧
            b1 ≤ (if b0 = 0xED then 0x9F else 0xBF) ∧
            0x80 ≤ b2 ∧ b2 ≤ 0xBF then
          ((b0 - 0xE0) * 0x1000 + (b1 - 0x80) * 0x40 + (b2 - 0x80), 3)
        else (0xFFFD, 1)
      | _ => (0xFFFD, 1)
    else if b0 ≤ 0xF4 then
      match rest with
      | b1 :: b2 :: b3 :: _ =>
        if (if b0 = 0xF0 then 0x90 else 0x80) ≤ b1 ∧
            b1 ≤ (if b0 = 0xF4 then 0x8F else 0xBF) ∧
            0x80 ≤ b2 ∧ b2 ≤ 0xBF ∧ 0x80 ≤ b3 ∧ b3 ≤ 0xBF then
          ((b0 - 0xF0) * 0x40000 + (b1 - 0x80) * 0x1000 + (b2 - 0x80) * 0x40 + (b3 - 0x80), 4)
        else (0xFFFD, 1)
      | _ => (0xFFFD, 1)
    else (0xFFFD, 1)

/-- Fuel-driven loop of `runeCountAndHasOnlyCRLF` from the source: decode runes
one at a time, stop at `utf8.RuneError` (which Go also reports for the empty
slice), count runes and track whether only CR (13) and LF (10) were seen. -/
def runeCountGo : Nat → Bytes → Nat → Bool → Nat × Bool
  | 0, _, count, only => (count, only)
  | fuel + 1, b, count, only =>
    let rs := decodeRune b
    if rs.1 = 0xFFFD then (count, only)
    else runeCountGo fuel (b.drop rs.2) (count + 1)
      (if rs.1 ≠ 10 ∧ rs.1 ≠ 13 then false else only)

/-- Direct embedding of `runeCountAndHasOnlyCRLF` from the source.  The fuel
`b.length + 1` always suffices because every decoded rune consumes at least
one byte. -/
def runeCountAndHasOnlyCRLF (b : Bytes) : Nat × Bool :=
  runeCountGo (b.length + 1) b 0 true

/-- Modelled from the spec: `strs.ByteSplitWithEsc` of go-corelib (not part of
src/).  Splits `b` by `delim`; an occurrence of the release byte sequence
`esc` escapes the byte that follows it (including another release byte), so a
delimiter immediately preceded by the release byte does not split, and the
release byte is retained unexpanded in the output.  `fuel` drives the
recursion; `b.length + 1` always suffices. -/
def splitWithEscF (delim esc : Bytes) : Nat → Bytes → List Bytes
  | 0, b => [b]
  | _ + 1, [] => [[]]
  | fuel + 1, c :: rest =>
    if esc ≠ [] ∧ esc.isPrefixOf (c :: rest) then
      match splitWithEscF delim esc fuel ((c :: rest).drop (esc.length + 1)) with
      | s :: ss => ((c :: rest).take (esc.length + 1) ++ s) :: ss
      | [] => [(c :: rest).take (esc.length + 1)]
    else if delim ≠ [] ∧ delim.isPrefixOf (c :: rest) then
      [] :: splitWithEscF delim esc fuel ((c :: rest).drop delim.length)
    else
      match splitWithEscF delim esc fuel rest with
      | s :: ss => (c :: s) :: ss
      | [] => [[c]]

/-- Modelled from the spec: split a byte list by a delimiter honoring the
release byte (see `splitWithEscF`). -/
def splitWithEsc (delim esc b : Bytes) : List Bytes :=
  splitWithEscF delim esc (b.length + 1) b

/-- Reference split transcribing, byte by byte, the claimed release-byte
behavior for a single delimiter byte `d` and a single release byte `e`:
a release byte immediately preceding a delimiter byte suppresses that split
and the release byte is retained unexpanded in the emitted data (the release
byte escapes the next byte, including another release byte); a release byte
anywhere else — before a non-delimiter byte, at the end of the token, or
itself escaped — is a literal; an unescaped delimiter byte splits; every
other byte is a literal.  To be compared with `splitWithEsc` over all
tokens. -/
def escSplitSpec (d e : Nat) : Bytes → List Bytes
  | [] => [[]]
  | [c] =>
    if c = e then [[e]]
    else if c = d then [[], []]
    else [[c]]
  | c :: x :: b =>
    if c = e then
      match escSplitSpec d e b with
      | s :: ss => (e :: x :: s) :: ss
      | [] => [[e, x]]
    else if c = d then [] :: escSplitSpec d e (x :: b)
    else
      match escSplitSpec d e (x :: b) with
      | s :: ss => (c :: s) :: ss
      | [] => [[c]]

/-- Modelled from the spec: the delimited byte scanner
(`ios.NewScannerByDelim3`, not part of src/).  It yields the successive tokens
of the input separated by the segment delimiter honoring the release byte;
each complete token retains its trailing delimiter, and a non-empty trailing
incomplete token is also emitted. -/
def scanTokens (delim esc input : Bytes) : List Bytes :=
  let ps := splitWithEsc delim esc input
  match ps.getLast? with
  | none => []
  | some t =>
    ps.dropLast.map (fun p => p ++ delim) ++ (if t = [] then [] else [t])

/-- RawSegElem from the source: an element or component of a raw EDI segment. -/
structure RawSegElem where
  ElemIndex : Nat
  CompIndex : Nat
  Data : Bytes
  deriving DecidableEq

/-- RawSeg from the source: a raw segment of an EDI document. -/
structure RawSeg where
  valid : Bool
  Name : Bytes
  Raw : Option Bytes
  Elems : List RawSegElem
  deriving DecidableEq

/-- Go zero value of `RawSeg` (what `Read` returns on every error path). -/
def RawSeg.zero : RawSeg := ⟨false, [], none, []⟩

/-- Go errors surfaced by the reader: `io.EOF` or `ErrInvalidEDI(msg)`. -/
inductive GoError where
  | eof
  | invalidEDI (msg : String)
  deriving DecidableEq

/-- State of `NonValidatingReader` from the source.  The `bufio.Scanner` is
embedded as the list of tokens it will still produce followed by its terminal
condition: `scanErr = none` is clean EOF, `scanErr = some e` is an I/O error
that `Scan`/`Err` keep reporting (bufio semantics).  Absent optional
delimiters (`nil` pointers through `newStrPtrByte`) are the empty byte list,
exactly what the source's `len(...) == 0` tests inspect. -/
structure Reader where
  tokens : List Bytes
  scanErr : Option String
  segDelim : Bytes
  elemDelim : Bytes
  compDelim : Bytes
  repDelim : Bytes
  releaseChar : Bytes
  runeBegin : Nat
  runeEnd : Nat
  segCount : Nat
  rawSeg : RawSeg
  deriving DecidableEq

/-- FileDecl fields consumed by `NewNonValidatingReader` (segment and element
delimiters required, the rest optional). -/
structure FileDecl where
  SegDelim : Bytes
  ElemDelim : Bytes
  CompDelim : Option Bytes
  RepDelim : Option Bytes
  ReleaseChar : Option Bytes
  IgnoreCRLF : Bool
  deriving DecidableEq

/-- Bytes of an optional delimiter string pointer (`newStrPtrByte`): a nil
pointer yields nil bytes. -/
def strPtrBytes : Option Bytes → Bytes
  | none => []
  | some b => b

/-- Result of one round of the scan loop at the top of `Read`: the token found
(if any), the remaining scanner tokens, and the updated rune positions. -/
structure ScanState where
  tok : Option Bytes
  rest : List Bytes
  runeBegin : Nat
  runeEnd : Nat
  deriving DecidableEq

/-- The `for r.scanner.Scan()` loop of `Read` from the source: pull tokens,
advance `runeBegin`/`runeEnd` over every examined token, skip tokens that
consist only of CR/LF, stop at the first other token. -/
def readLoop : List Bytes → Nat → Nat → ScanState
  | [], rb, re => ⟨none, [], rb, re⟩
  | b :: rest, _, re =>
    let c := (runeCountAndHasOnlyCRLF b).1
    let only := (runeCountAndHasOnlyCRLF b).2
    if only then readLoop rest re (re + c) else ⟨some b, rest, re, re + c⟩

/-- The `noSegDelim` computation of `readToken` from the source: drop the
trailing segment delimiter, and when the segment delimiter is exactly `"\n"`
and a trailing `'\r'` remains, drop that too. -/
def noSegDelimOf (r : Reader) (token : Bytes) : Bytes :=
  if r.segDelim = [10] ∧
      (token.take (token.length - r.segDelim.length)).getLast? = some 13 then
    (token.take (token.length - r.segDelim.length)).dropLast
  else token.take (token.length - r.segDelim.length)

/-- The nested element/repetition/component loops of `readToken` from the
source, mirrored as folds that append to the `Elems` buffer: split by the
element delimiter; split each element by the repetition delimiter when one is
configured; split each repetition value by the component delimiter when one is
configured (otherwise a single component with `CompIndex 1`), appending
`RawSegElem{ElemIndex = i, CompIndex = j + 1}` entries in order. -/
def rawElemsOf (r : Reader) (noSegDelim : Bytes) : List RawSegElem :=
  List.foldl
    (fun acc p =>
      let elemVals :=
        if r.repDelim ≠ [] then splitWithEsc r.repDelim r.releaseChar p.2 else [p.2]
      List.foldl
        (fun acc elemVal =>
          if r.compDelim = [] then acc ++ [⟨p.1, 1, elemVal⟩]
          else
            List.foldl (fun acc q => acc ++ [⟨p.1, q.1 + 1, q.2⟩]) acc
              (List.enum (splitWithEsc r.compDelim r.releaseChar elemVal)))
        acc elemVals)
    [] (List.enum (splitWithEsc r.elemDelim r.releaseChar noSegDelim))

/-- Result of `readToken`: the updated reusable segment buffer, the returned
error, and what the stray debug `fmt.Println(json.Marshal(...))` statement in
the source prints to stdout. -/
structure TokResult where
  seg : RawSeg
  err : Option GoError
  printed : List RawSeg
  deriving DecidableEq

/-- readToken from the source: reset the reusable buffer, remember the raw
token, strip the segment delimiter (plus CRLF tolerance), break the token into
elements, fail with `ErrInvalidEDI("missing segment name")` when no elements
were produced or the first element's data is empty, otherwise set the name and
validity.  On success the source marshals the segment to JSON (which never
fails for this struct) and prints it — the print is recorded in `printed`. -/
def readToken (r : Reader) (token : Bytes) (rawSeg : RawSeg) : TokResult :=
  let rawSeg : RawSeg := { rawSeg with valid := false, Name := [], Raw := some token, Elems := [] }
  let elems := rawElemsOf r (noSegDelimOf r token)
  let rawSeg := { rawSeg with Elems := elems }
  match elems with
  | [] => ⟨rawSeg, some (GoError.invalidEDI "missing segment name"), []⟩
  | e0 :: _ =>
    if e0.Data = [] then ⟨rawSeg, some (GoError.invalidEDI "missing segment name"), []⟩
    else
      let rawSeg := { rawSeg with Name := e0.Data, valid := true }
      ⟨rawSeg, none, [rawSeg]⟩

/-- Result of one `Read` call: the returned segment, the returned error, what
was printed to stdout during the call, and the updated reader state. -/
structure ReadResult where
  seg : RawSeg
  err : Option GoError
  printed : List RawSeg
  state : Reader
  deriving DecidableEq

/-- Read from the source: run the scan loop, increment the segment count
unconditionally, then surface the scanner error (wrapped in `ErrInvalidEDI`),
`io.EOF` when no token remains, the `readToken` error, or the processed
segment.  Every error path returns the `RawSeg` zero value. -/
def Read (r : Reader) : ReadResult :=
  let L := readLoop r.tokens r.runeBegin r.runeEnd
  let r1 : Reader :=
    { r with tokens := L.rest, runeBegin := L.runeBegin, runeEnd := L.runeEnd,
             segCount := r.segCount + 1 }
  match L.tok with
  | none =>
    match r.scanErr with
    | some e =>
      ⟨RawSeg.zero, some (GoError.invalidEDI ("cannot read segment, err: " ++ e)), [], r1⟩
    | none => ⟨RawSeg.zero, some GoError.eof, [], r1⟩
  | some t =>
    let tr := readToken r t r.rawSeg
    let r2 : Reader := { r1 with rawSeg := tr.seg }
    match tr.err with
    | some e => ⟨RawSeg.zero, some e, tr.printed, r2⟩
    | none => ⟨tr.seg, none, tr.printed, r2⟩

/-- NewNonValidatingReader from the source: optionally strip all CR and LF
bytes (`ignore_crlf`), set up the scanner on the segment delimiter honoring
the release byte, and start with rune positions 1/1 and segment count 0. -/
def NewNonValidatingReader (decl : FileDecl) (input : Bytes) : Reader :=
  let input := if decl.IgnoreCRLF then (input.filter (· ≠ 13)).filter (· ≠ 10) else input
  { tokens := scanTokens decl.SegDelim (strPtrBytes decl.ReleaseChar) input
    scanErr := none
    segDelim := decl.SegDelim
    elemDelim := decl.ElemDelim
    compDelim := strPtrBytes decl.CompDelim
    repDelim := strPtrBytes decl.RepDelim
    releaseChar := strPtrBytes decl.ReleaseChar
    runeBegin := 1
    runeEnd := 1
    segCount := 0
    rawSeg := RawSeg.zero }

/-- SegCount accessor from the source. -/
def SegCount (r : Reader) : Nat := r.segCount

/-- RuneBegin accessor from the source. -/
def RuneBegin (r : Reader) : Nat := r.runeBegin

/-- RuneEnd accessor from the source. -/
def RuneEnd (r : Reader) : Nat := r.runeEnd

/-- Iterated reads: the reader state after `n` calls to `Read`. -/
def readN : Nat → Reader → Reader
  | 0, r => r
  | n + 1, r => (Read (readN n r)).state

/-- Declarative (spec-side) entries contributed by the element at 1-based
split index `i`: repetitions, then components, `CompIndex = j + 1`. -/
def entriesFor (r : Reader) (i : Nat) (elem : Bytes) : List RawSegElem :=
  (if r.repDelim ≠ [] then splitWithEsc r.repDelim r.releaseChar elem else [elem]).flatMap
    fun rep =>
      if r.compDelim = [] then [⟨i, 1, rep⟩]
      else (List.enum (splitWithEsc r.compDelim r.releaseChar rep)).map fun q => ⟨i, q.1 + 1, q.2⟩

/-- Declarative (spec-side) element list of a token with the segment delimiter
already removed: the concatenation, in left-to-right element order, of the
entries of each element. -/
def elemsSpec (r : Reader) (noSegDelim : Bytes) : List RawSegElem :=
  (List.enum (splitWithEsc r.elemDelim r.releaseChar noSegDelim)).flatMap
    fun p => entriesFor r p.1 p.2

/-! Concrete delimiter configurations and readers used by the examples. -/

/-- Basic X12-style configuration: segment `~`, element `*`, nothing else. -/
def declBasic : FileDecl := ⟨bytesOf "~", bytesOf "*", none, none, none, false⟩

/-- Configuration with repetition `^` and component `:` delimiters. -/
def declRepComp : FileDecl :=
  ⟨bytesOf "~", bytesOf "*", some (bytesOf ":"), some (bytesOf "^"), none, false⟩

/-- Configuration with a component delimiter `:` only. -/
def declComp : FileDecl := ⟨bytesOf "~", bytesOf "*", some (bytesOf ":"), none, none, false⟩

/-- Configuration with release character `?`. -/
def declRelease : FileDecl := ⟨bytesOf "~", bytesOf "*", none, none, some (bytesOf "?"), false⟩

/-- Reader over `REF*A^B:1*Z~` with repetition and component delimiters. -/
def rdRepComp : Reader := NewNonValidatingReader declRepComp (bytesOf "REF*A^B:1*Z~")

/-- Reader over `A:B*C~` whose segment name element contains a component
delimiter. -/
def rdCompName : Reader := NewNonValidatingReader declComp (bytesOf "A:B*C~")

/-- Reader over `NM1*AB?*CD~` with release character `?`. -/
def rdRelease : Reader := NewNonValidatingReader declRelease (bytesOf "NM1*AB?*CD~")

/-- Reader over `ISA*1~`. -/
def rdIsa : Reader := NewNonValidatingReader declBasic (bytesOf "ISA*1~")

/-- Reader over `*A~B~`: first segment has an empty name, second is fine. -/
def rdBadThenGood : Reader := NewNonValidatingReader declBasic (bytesOf "*A~B~")

/-- Reader whose scanner already failed with an I/O error. -/
def rdScanErr : Reader :=
  { tokens := [], scanErr := some "io failure", segDelim := bytesOf "~",
    elemDelim := bytesOf "*", compDelim := [], repDelim := [], releaseChar := [],
    runeBegin := 1, runeEnd := 1, segCount := 0, rawSeg := RawSeg.zero }

/-- Reader over `ISA*1~\r\n` (trailing CRLF after the segment delimiter). -/
def rdCrlf : Reader := NewNonValidatingReader declBasic (bytesOf "ISA*1~\r\n")

/-- Reader over empty input. -/
def rdEmpty : Reader := NewNonValidatingReader declBasic (bytesOf "")

/-- Reader over `ISA*00*x~`. -/
def rdIsa00 : Reader := NewNonValidatingReader declBasic (bytesOf "ISA*00*x~")

/-- Reader state whose next scanner token is a CRLF-only line. -/
def rdCrlfMid : Reader := { rdIsa00 with tokens := [bytesOf "\r\n", bytesOf "B~"] }

/-- Reader state whose remaining scanner tokens are all CRLF-only. -/
def rdCrlfOnly : Reader := { rdIsa00 with tokens := [bytesOf "\r\n"] }

/-- Configuration whose segment delimiter is a bare LF. -/
def declLf : FileDecl := ⟨bytesOf "\n", bytesOf "*", none, none, none, false⟩

/-- Reader configured with the bare-LF segment delimiter. -/
def rdLf : Reader := NewNonValidatingReader declLf (bytesOf "A*B\n")

/-! Helper lemmas about the split-with-escape function. -/

/-- The fuel of `splitWithEscF` is irrelevant once it exceeds the input
length. -/
theorem splitWithEscF_irrel (delim esc : Bytes) :
    ∀ (f1 : Nat) (b : Bytes) (f2 : Nat), b.length < f1 → b.length < f2 →
      splitWithEscF delim esc f1 b = splitWithEscF delim esc f2 b := by
  intro f1
  induction f1 with
  | zero => intro b f2 h1 h2; exact absurd h1 (Nat.not_lt_zero _)
  | succ k ih =>
    intro b f2 h1 h2
    cases b with
    | nil =>
      cases f2 with
      | zero => exact absurd h2 (Nat.not_lt_zero _)
      | succ m => rfl
    | cons c rest =>
      cases f2 with
      | zero => exact absurd h2 (Nat.not_lt_zero _)
      | succ m =>
        have hr1 : rest.length < k := by
          simpa using Nat.lt_of_succ_lt_succ h1
        have hr2 : rest.length < m := by
          simpa using Nat.lt_of_succ_lt_succ h2
        simp only [splitWithEscF]
        by_cases hesc : esc ≠ [] ∧ esc.isPrefixOf (c :: rest)
        · rw [if_pos hesc,
            if_pos hesc,
            ih ((c :: rest).drop (esc.length + 1)) m
              (by simp only [List.length_drop, List.length_cons]; omega)
              (by simp only [List.length_drop, List.length_cons]; omega)]
        · rw [if_neg hesc, if_neg hesc]
          by_cases hdel : delim ≠ [] ∧ delim.isPrefixOf (c :: rest)
          · have hd1 : 1 ≤ delim.length := by
              cases delim with
              | nil => exact absurd rfl hdel.1
              | cons d ds => simp
            rw [if_pos hdel,
              if_pos hdel,
              ih ((c :: rest).drop delim.length) m
                (by simp only [List.length_drop, List.length_cons]; omega)
                (by simp only [List.length_drop, List.length_cons]; omega)]
          · rw [if_neg hdel, if_neg hdel, ih rest m hr1 hr2]

/-- Splitting the empty byte list yields one empty piece. -/
theorem splitWithEsc_nil (delim esc : Bytes) : splitWithEsc delim esc [] = [[]] := rfl

/-- One-step unfolding of `splitWithEsc` on a non-empty byte list. -/
theorem splitWithEsc_cons (delim esc : Bytes) (c : Nat) (rest : Bytes) :
    splitWithEsc delim esc (c :: rest) =
      if esc ≠ [] ∧ esc.isPrefixOf (c :: rest) then
        match splitWithEsc delim esc ((c :: rest).drop (esc.length + 1)) with
        | s :: ss => ((c :: rest).take (esc.length + 1) ++ s) :: ss
        | [] => [(c :: rest).take (esc.length + 1)]
      else if delim ≠ [] ∧ delim.isPrefixOf (c :: rest) then
        [] :: splitWithEsc delim esc ((c :: rest).drop delim.length)
      else
        match splitWithEsc delim esc rest with
        | s :: ss => (c :: s) :: ss
        | [] => [[c]] := by
  unfold splitWithEsc
  simp only [List.length_cons, splitWithEscF]
  by_cases hesc : esc ≠ [] ∧ esc.isPrefixOf (c :: rest)
  · rw [if_pos hesc,
      if_pos hesc,
      splitWithEscF_irrel delim esc (rest.length + 1) ((c :: rest).drop (esc.length + 1))
        (((c :: rest).drop (esc.length + 1)).length + 1)
        (by simp only [List.length_drop, List.length_cons]; omega)
        (by omega)]
  · rw [if_neg hesc, if_neg hesc]
    by_cases hdel : delim ≠ [] ∧ delim.isPrefixOf (c :: rest)
    · have hd1 : 1 ≤ delim.length := by
        cases delim with
        | nil => exact absurd rfl hdel.1
        | cons d ds => simp
      rw [if_pos hdel,
        if_pos hdel,
        splitWithEscF_irrel delim esc (rest.length + 1) ((c :: rest).drop delim.length)
          (((c :: rest).drop delim.length).length + 1)
          (by simp only [List.length_drop, List.length_cons]; omega)
          (by omega)]
    · rw [if_neg hdel, if_neg hdel,
        splitWithEscF_irrel delim esc (rest.length + 1) rest (rest.length + 1)
          (by omega) (by omega)]

/-- The split of any byte list is a non-empty list of pieces. -/
theorem splitWithEsc_ne_nil (delim esc b : Bytes) : splitWithEsc delim esc b ≠ [] := by
  cases b with
  | nil => simp [splitWithEsc_nil]
  | cons c rest =>
    rw [splitWithEsc_cons]
    split
    · split <;> simp
    · split
      · simp
      · split <;> simp

/-! Helper lemmas relating the imperative element-building folds to the
declarative description. -/

/-- A left fold whose step appends to the accumulator is an append of a
`flatMap`. -/
theorem foldl_acc_flatMap {α β : Type} (f : List β → α → List β) (g : α → List β)
    (hf : ∀ acc x, f acc x = acc ++ g x) :
    ∀ (l : List α) (acc : List β), List.foldl f acc l = acc ++ l.flatMap g := by
  intro l
  induction l with
  | nil => intro acc; simp
  | cons x xs ih =>
    intro acc
    rw [List.foldl_cons, hf, ih, List.flatMap_cons, List.append_assoc]

/-- Flat-mapping singletons is mapping. -/
theorem flatMap_single {α β : Type} (f : α → β) :
    ∀ l : List α, (l.flatMap fun x => [f x]) = l.map f := by
  intro l
  induction l with
  | nil => rfl
  | cons x xs ih => simp [ih]

/-- The `Elems` buffer built by the nested loops of `readToken` is exactly the
declarative nested-split description. -/
theorem rawElems_eq_spec (r : Reader) (nsd : Bytes) :
    rawElemsOf r nsd = elemsSpec r nsd := by
  unfold rawElemsOf elemsSpec
  rw [foldl_acc_flatMap _ (fun p => entriesFor r p.1 p.2)]
  · simp
  · intro acc p
    unfold entriesFor
    rw [foldl_acc_flatMap _
      (fun rep =>
        if r.compDelim = [] then [(⟨p.1, 1, rep⟩ : RawSegElem)]
        else (List.enum (splitWithEsc r.compDelim r.releaseChar rep)).map
          fun q => ⟨p.1, q.1 + 1, q.2⟩)]
    intro acc2 elemVal
    by_cases hc : r.compDelim = []
    · simp [hc]
    · rw [if_neg hc, if_neg hc,
        foldl_acc_flatMap _ (fun q : Nat × Bytes => [(⟨p.1, q.1 + 1, q.2⟩ : RawSegElem)])
          (fun _ _ => rfl),
        flatMap_single]

/-! Inversion lemmas for `readToken` and `Read`. -/

/-- The `Elems` of the buffer returned by `readToken` are the built element
list, on success and failure alike. -/
theorem readToken_seg_elems (r : Reader) (token : Bytes) (s : RawSeg) :
    (readToken r token s).seg.Elems = rawElemsOf r (noSegDelimOf r token) := by
  unfold readToken
  cases h : rawElemsOf r (noSegDelimOf r token) with
  | nil => simp [h]
  | cons e0 l =>
    by_cases hd : e0.Data = []
    · simp [h, hd]
    · simp [h, hd]

/-- The only error `readToken` produces is the missing-segment-name one, and
it produces it exactly when no elements were built or the first element's data
is empty. -/
theorem readToken_missing_iff (r : Reader) (token : Bytes) (s : RawSeg) :
    (readToken r token s).err = some (GoError.invalidEDI "missing segment name") ↔
      ((readToken r token s).seg.Elems = [] ∨
        ∃ e0 l, (readToken r token s).seg.Elems = e0 :: l ∧ e0.Data = []) := by
  unfold readToken
  cases h : rawElemsOf r (noSegDelimOf r token) with
  | nil => simp [h]
  | cons e0 l =>
    by_cases hd : e0.Data = []
    · simp only [h, hd]
      constructor
      · intro
        exact Or.inr ⟨e0, l, by simp [hd], hd⟩
      · intro
        simp [hd]
    · simp only [h]
      rw [if_neg hd]
      constructor
      · intro hcontra
        simp at hcontra
      · rintro (hcontra | ⟨e1, l1, he, hd1⟩)
        · simp at hcontra
        · simp at he
          exact absurd (he.1 ▸ hd1) hd

/-- On success `readToken` sets the name to the first element's data and marks
the buffer valid. -/
theorem readToken_success (r : Reader) (token : Bytes) (s : RawSeg)
    (h : (readToken r token s).err = none) :
    ∃ e0 l, (readToken r token s).seg.Elems = e0 :: l ∧ e0.Data ≠ [] ∧
      (readToken r token s).seg.Name = e0.Data ∧ (readToken r token s).seg.valid = true := by
  unfold readToken at h ⊢
  cases helems : rawElemsOf r (noSegDelimOf r token) with
  | nil => simp [helems] at h
  | cons e0 l =>
    by_cases hd : e0.Data = []
    · simp [helems, hd] at h
    · refine ⟨e0, l, ?_⟩
      simp [helems, hd]

/-- The errors of `readToken` are none or the missing-segment-name error. -/
theorem readToken_err_cases (r : Reader) (token : Bytes) (s : RawSeg) :
    (readToken r token s).err = none ∨
      (readToken r token s).err = some (GoError.invalidEDI "missing segment name") := by
  unfold readToken
  cases h : rawElemsOf r (noSegDelimOf r token) with
  | nil => simp [h]
  | cons e0 l =>
    by_cases hd : e0.Data = []
    · simp [h, hd]
    · simp [h, hd]

/-- Read when the scan loop exhausts the scanner and the scanner is in its
error state: the wrapped scanner error is returned and the scanner state is
unchanged (no tokens remain, the error persists). -/
theorem Read_scanErr (r : Reader) (e : String)
    (ht : (readLoop r.tokens r.runeBegin r.runeEnd).tok = none)
    (he : r.scanErr = some e) :
    (Read r).seg = RawSeg.zero ∧
      (Read r).err = some (GoError.invalidEDI ("cannot read segment, err: " ++ e)) ∧
      (Read r).state.tokens = (readLoop r.tokens r.runeBegin r.runeEnd).rest ∧
      (Read r).state.scanErr = some e := by
  simp [Read, ht, he]

/-- Read when the scan loop exhausts the scanner cleanly: EOF. -/
theorem Read_eof (r : Reader)
    (ht : (readLoop r.tokens r.runeBegin r.runeEnd).tok = none)
    (he : r.scanErr = none) :
    (Read r).seg = RawSeg.zero ∧ (Read r).err = some GoError.eof := by
  simp [Read, ht, he]

/-- Read when a token is found and `readToken` fails. -/
theorem Read_tok_err (r : Reader) (t : Bytes) (e : GoError)
    (ht : (readLoop r.tokens r.runeBegin r.runeEnd).tok = some t)
    (he : (readToken r t r.rawSeg).err = some e) :
    (Read r).seg = RawSeg.zero ∧ (Read r).err = some e := by
  simp [Read, ht, he]

/-- Read when a token is found and `readToken` succeeds. -/
theorem Read_tok_ok (r : Reader) (t : Bytes)
    (ht : (readLoop r.tokens r.runeBegin r.runeEnd).tok = some t)
    (he : (readToken r t r.rawSeg).err = none) :
    (Read r).seg = (readToken r t r.rawSeg).seg ∧ (Read r).err = none ∧
      (Read r).printed = (readToken r t r.rawSeg).printed := by
  simp [Read, ht, he]

/-- A successful `Read` comes from a found token whose `readToken`
succeeded. -/
theorem Read_err_none_inv (r : Reader) (h : (Read r).err = none) :
    ∃ t, (readLoop r.tokens r.runeBegin r.runeEnd).tok = some t ∧
      (readToken r t r.rawSeg).err = none ∧
      (Read r).seg = (readToken r t r.rawSeg).seg := by
  cases ht : (readLoop r.tokens r.runeBegin r.runeEnd).tok with
  | none =>
    cases he : r.scanErr with
    | none => rw [(Read_eof r ht he).2] at h; cases h
    | some e => rw [(Read_scanErr r e ht he).2.1] at h; cases h
  | some t =>
    cases he : (readToken r t r.rawSeg).err with
    | none => exact ⟨t, rfl, he, (Read_tok_ok r t ht he).1⟩
    | some e => rw [(Read_tok_err r t e ht he).2] at h; cases h

/-- The segment count advances by exactly one on every `Read` call, whatever
the outcome. -/
theorem Read_segCount (r : Reader) : (Read r).state.segCount = r.segCount + 1 := by
  cases ht : (readLoop r.tokens r.runeBegin r.runeEnd).tok with
  | none => cases he : r.scanErr <;> simp [Read, ht, he]
  | some t => cases he : (readToken r t r.rawSeg).err <;> simp [Read, ht, he]

/-! Structure lemmas for the declarative element description. -/

/-- Every entry contributed by the element at split index `i` carries
`ElemIndex = i`. -/
theorem entriesFor_elemIndex (r : Reader) (i : Nat) (elem : Bytes) :
    ∀ x ∈ entriesFor r i elem, x.ElemIndex = i := by
  intro x hx
  unfold entriesFor at hx
  rw [List.mem_flatMap] at hx
  obtain ⟨rep, _, hx⟩ := hx
  by_cases hc : r.compDelim = []
  · rw [if_pos hc, List.mem_singleton] at hx
    rw [hx]
  · rw [if_neg hc, List.mem_map] at hx
    obtain ⟨q, _, rfl⟩ := hx
    rfl

/-- The entries contributed by any element start with a `CompIndex = 1` entry
for that element. -/
theorem entriesFor_head (r : Reader) (i : Nat) (elem : Bytes) :
    ∃ dta tail, entriesFor r i elem = ⟨i, 1, dta⟩ :: tail := by
  unfold entriesFor
  obtain ⟨v, vs, hs⟩ : ∃ v vs,
      (if r.repDelim ≠ [] then splitWithEsc r.repDelim r.releaseChar elem else [elem]) =
        v :: vs := by
    by_cases hrep : r.repDelim ≠ []
    · rw [if_pos hrep]
      cases hs : splitWithEsc r.repDelim r.releaseChar elem with
      | nil => exact absurd hs (splitWithEsc_ne_nil _ _ _)
      | cons v vs => exact ⟨v, vs, rfl⟩
    · rw [if_neg hrep]
      exact ⟨elem, [], rfl⟩
  rw [hs, List.flatMap_cons]
  by_cases hc : r.compDelim = []
  · rw [if_pos hc]
    exact ⟨v, _, rfl⟩
  · rw [if_neg hc]
    obtain ⟨c0, cs, hcs⟩ : ∃ c0 cs, splitWithEsc r.compDelim r.releaseChar v = c0 :: cs := by
      cases hcs : splitWithEsc r.compDelim r.releaseChar v with
      | nil => exact absurd hcs (splitWithEsc_ne_nil _ _ _)
      | cons c0 cs => exact ⟨c0, cs, rfl⟩
    rw [hcs, List.enum_cons, List.map_cons]
    exact ⟨c0, _, rfl⟩

/-- The entry list of any element is non-empty. -/
theorem entriesFor_ne_nil (r : Reader) (i : Nat) (elem : Bytes) :
    entriesFor r i elem ≠ [] := by
  obtain ⟨dta, tail, h⟩ := entriesFor_head r i elem
  rw [h]
  simp

/-- The split with escape coincides, on every token, with the reference
`escSplitSpec` transcribed from the claimed release-byte behavior (single
delimiter byte `d`, single release byte `e`). -/
theorem splitWithEsc_eq_escSplitSpec (d e : Nat) :
    ∀ b : Bytes, splitWithEsc [d] [e] b = escSplitSpec d e b := by
  have H : ∀ (n : Nat) (b : Bytes), b.length ≤ n →
      splitWithEsc [d] [e] b = escSplitSpec d e b := by
    intro n
    induction n with
    | zero =>
      intro b hb
      rw [List.length_eq_zero.mp (Nat.le_zero.mp hb)]
      rfl
    | succ n ih =>
      intro b hb
      cases b with
      | nil => rfl
      | cons c rest =>
        cases rest with
        | nil =>
          rw [splitWithEsc_cons]
          by_cases hce : c = e
          · subst hce
            rw [if_pos ⟨by simp, by simp [List.isPrefixOf]⟩,
              show ([c] : Bytes).drop (([c] : Bytes).length + 1) = [] from rfl,
              splitWithEsc_nil]
            simp [escSplitSpec]
          · rw [if_neg (by simp [List.isPrefixOf]; intro hcontra; exact hce hcontra.symm)]
            by_cases hcd : c = d
            · subst hcd
              rw [if_pos ⟨by simp, by simp [List.isPrefixOf]⟩,
                show ([c] : Bytes).drop ([c] : Bytes).length = ([] : Bytes) from rfl,
                splitWithEsc_nil]
              simp [escSplitSpec, hce]
            · rw [if_neg (by simp [List.isPrefixOf]; intro hcontra; exact hcd hcontra.symm),
                splitWithEsc_nil]
              simp [escSplitSpec, hce, hcd]
        | cons x b2 =>
          have hb2 : b2.length ≤ n := by
            simp only [List.length_cons] at hb
            omega
          have hxb2 : (x :: b2).length ≤ n := by
            simp only [List.length_cons] at hb ⊢
            omega
          rw [splitWithEsc_cons]
          by_cases hce : c = e
          · subst hce
            have hrec := ih b2 hb2
            rw [if_pos ⟨by simp, by simp [List.isPrefixOf]⟩,
              show ((c :: x :: b2 : Bytes)).drop (([c] : Bytes).length + 1) = b2 from rfl,
              show ((c :: x :: b2 : Bytes)).take (([c] : Bytes).length + 1) = [c, x] from
                rfl,
              hrec]
            cases hs : escSplitSpec d c b2 with
            | nil => simp [escSplitSpec, hs]
            | cons s ss => simp [escSplitSpec, hs]
          · rw [if_neg (by simp [List.isPrefixOf]; intro hcontra; exact hce hcontra.symm)]
            by_cases hcd : c = d
            · subst hcd
              have hrec := ih (x :: b2) hxb2
              rw [if_pos ⟨by simp, by simp [List.isPrefixOf]⟩,
                show ((c :: x :: b2 : Bytes)).drop ([c] : Bytes).length = x :: b2 from rfl,
                hrec]
              simp [escSplitSpec, hce]
            · have hrec := ih (x :: b2) hxb2
              rw [if_neg (by simp [List.isPrefixOf]; intro hcontra; exact hcd hcontra.symm), hrec]
              cases hs : escSplitSpec d e (x :: b2) with
              | nil => simp [escSplitSpec, hs, hce, hcd]
              | cons s ss => simp [escSplitSpec, hs, hce, hcd]
  intro b
  exact H b.length b le_rfl

/-- A release byte always escapes the byte right after it (the delimiter byte
included): no split happens at that byte, and both bytes are retained
unexpanded at the front of the current piece; the remaining pieces are those
of the remaining suffix.  Stated over every continuation, with no restriction
on the escaped byte or the suffix. -/
theorem splitWithEsc_esc_step (d e x : Nat) (b : Bytes) :
    splitWithEsc [d] [e] (e :: x :: b) =
      (e :: x :: (splitWithEsc [d] [e] b).headD []) :: (splitWithEsc [d] [e] b).tail := by
  obtain ⟨s, ss, hs⟩ : ∃ s ss, splitWithEsc [d] [e] b = s :: ss := by
    cases hs : splitWithEsc [d] [e] b with
    | nil => exact absurd hs (splitWithEsc_ne_nil _ _ _)
    | cons s ss => exact ⟨s, ss, rfl⟩
  rw [splitWithEsc_cons, if_pos ⟨by simp, by simp [List.isPrefixOf]⟩,
    show ((e :: x :: b : Bytes)).drop (([e] : Bytes).length + 1) = b from rfl,
    show ((e :: x :: b : Bytes)).take (([e] : Bytes).length + 1) = [e, x] from rfl, hs]
  simp

/-- A trailing release byte is a literal: it neither escapes anything nor
splits, and is emitted verbatim. -/
theorem splitWithEsc_esc_last (d e : Nat) : splitWithEsc [d] [e] [e] = [[e]] := by
  rw [splitWithEsc_cons, if_pos ⟨by simp, by simp [List.isPrefixOf]⟩,
    show ([e] : Bytes).drop (([e] : Bytes).length + 1) = [] from rfl, splitWithEsc_nil]
  rfl

/-! The claims. -/

/-- C1: for every token, the reader splits the token (with the trailing
segment delimiter removed) by the element delimiter honoring the release byte,
then splits each element by the repetition delimiter when one is configured
(otherwise the whole element is a single repetition), and each repetition
value by the component delimiter when one is configured (otherwise a single
component with component index 1), producing `RawSegElem` entries in
left-to-right order with `CompIndex = j + 1` for the j-th component; and the
input `REF*A^B:1*Z~` with repetition delimiter `^` and component delimiter `:`
yields for element 1 the entries (1,1,"A"), (1,1,"B"), (1,2,"1") and for
element 2 the entry (2,1,"Z"). -/
theorem claim_C1 :
    (∀ (r : Reader) (token : Bytes) (s : RawSeg),
        (readToken r token s).seg.Elems = elemsSpec r (noSegDelimOf r token)) ∧
      ((Read rdRepComp).err = none ∧
        (Read rdRepComp).seg.Elems =
          [⟨0, 1, bytesOf "REF"⟩, ⟨1, 1, bytesOf "A"⟩, ⟨1, 1, bytesOf "B"⟩,
            ⟨1, 2, bytesOf "1"⟩, ⟨2, 1, bytesOf "Z"⟩]) :=
  ⟨fun r token s => (readToken_seg_elems r token s).trans (rawElems_eq_spec r _),
    rfl, rfl⟩

/-- C2 (amended): for every `RawSeg` successfully returned by `Read`, the
element list starts with an entry whose `ElemIndex` is 0 and `CompIndex` is 1,
whose data equals the segment name; the list is a non-empty prefix of entries
with `ElemIndex = 0` (all derived from the segment-name element, which can
contribute several entries when it contains repetition or component
delimiters) followed by entries with `ElemIndex ≥ 1`. -/
theorem claim_C2 (r : Reader) (h : (Read r).err = none) :
    ∃ e0 rest0, (Read r).seg.Elems = e0 :: rest0 ∧ e0.ElemIndex = 0 ∧ e0.CompIndex = 1 ∧
      (Read r).seg.Name = e0.Data ∧
      ∃ pfx sfx, (Read r).seg.Elems = pfx ++ sfx ∧ pfx ≠ [] ∧
        (∀ x ∈ pfx, x.ElemIndex = 0) ∧ ∀ x ∈ sfx, 1 ≤ x.ElemIndex := by
  obtain ⟨t, ht, herr, hseg⟩ := Read_err_none_inv r h
  obtain ⟨e0, l, helems, _, hname, _⟩ := readToken_success r t r.rawSeg herr
  have hspec : (readToken r t r.rawSeg).seg.Elems = elemsSpec r (noSegDelimOf r t) :=
    (readToken_seg_elems r t r.rawSeg).trans (rawElems_eq_spec r _)
  obtain ⟨x, xs, hx⟩ : ∃ x xs,
      splitWithEsc r.elemDelim r.releaseChar (noSegDelimOf r t) = x :: xs := by
    cases hx : splitWithEsc r.elemDelim r.releaseChar (noSegDelimOf r t) with
    | nil => exact absurd hx (splitWithEsc_ne_nil _ _ _)
    | cons x xs => exact ⟨x, xs, rfl⟩
  have hshape : elemsSpec r (noSegDelimOf r t) =
      entriesFor r 0 x ++ (xs.enumFrom 1).flatMap (fun p => entriesFor r p.1 p.2) := by
    unfold elemsSpec
    rw [hx, List.enum_cons, List.flatMap_cons]
  obtain ⟨dta, tail, hhead⟩ := entriesFor_head r 0 x
  have hElems : (Read r).seg.Elems =
      entriesFor r 0 x ++ (xs.enumFrom 1).flatMap (fun p => entriesFor r p.1 p.2) := by
    rw [hseg, hspec, hshape]
  have hcons : (Read r).seg.Elems = e0 :: l := by rw [hseg, helems]
  have he0 : e0 = ⟨0, 1, dta⟩ := by
    have h2 : e0 :: l =
        (⟨0, 1, dta⟩ : RawSegElem) ::
          (tail ++ (xs.enumFrom 1).flatMap fun p => entriesFor r p.1 p.2) := by
      rw [← hcons, hElems, hhead]
      rfl
    exact (List.cons.injEq _ _ _ _ ▸ h2).1
  refine ⟨e0, l, hcons, by rw [he0], by rw [he0], by rw [hseg]; exact hname,
    entriesFor r 0 x, (xs.enumFrom 1).flatMap (fun p => entriesFor r p.1 p.2),
    hElems, entriesFor_ne_nil r 0 x, entriesFor_elemIndex r 0 x, ?_⟩
  intro y hy
  rw [List.mem_flatMap] at hy
  obtain ⟨p, hp, hmem⟩ := hy
  obtain ⟨i, z⟩ := p
  have hi : 1 ≤ i := (List.mk_mem_enumFrom_iff_le_and_getElem?_sub.mp hp).1
  have := entriesFor_elemIndex r i z y hmem
  rw [this]
  exact hi

/-- C2 counterexample: on input `A:B*C~` with component delimiter `:`, `Read`
succeeds, and the second entry of the element list carries `ElemIndex = 0`
(it stems from the segment-name element), contradicting the claim that every
entry other than `elements[0]` has `ElemIndex ≥ 1`. -/
theorem claim_C2_counterexample :
    (Read rdCompName).err = none ∧
      (Read rdCompName).seg.Elems = [⟨0, 1, [65]⟩, ⟨0, 2, [66]⟩, ⟨1, 1, [67]⟩] :=
  ⟨rfl, rfl⟩

/-- C2 witness: the amended claim instantiated on the successful read of
`ISA*00*x~`. -/
theorem claim_C2_witness :
    (Read rdIsa00).err = none ∧
      ∃ e0 rest0, (Read rdIsa00).seg.Elems = e0 :: rest0 ∧ e0.ElemIndex = 0 ∧
        e0.CompIndex = 1 ∧ (Read rdIsa00).seg.Name = e0.Data ∧
        ∃ pfx sfx, (Read rdIsa00).seg.Elems = pfx ++ sfx ∧ pfx ≠ [] ∧
          (∀ x ∈ pfx, x.ElemIndex = 0) ∧ ∀ x ∈ sfx, 1 ≤ x.ElemIndex :=
  ⟨rfl, claim_C2 rdIsa00 rfl⟩

/-- C3: for every input token — with a single delimiter byte and a single
release byte, the units the claim speaks of — the split honoring the release
byte behaves exactly as the claim describes: `splitWithEsc` coincides with
the reference `escSplitSpec` transcribed from the claim's sentences, so a
release byte immediately preceding a delimiter byte suppresses that split
with the release byte retained unexpanded in the emitted data, and a release
byte anywhere else is a literal.  In addition: the release byte escapes the
byte right after it (delimiter or not, another release byte included), both
kept verbatim; a trailing release byte is a literal; and concretely, the
claim's own token `NM1*AB?*CD` splits (under both definitions) into
`NM1` and `AB?*CD` — so input `NM1*AB?*CD~` read end-to-end yields exactly
the entries (0,1,"NM1") and (1,1,"AB?*CD") — while a release byte before a
non-delimiter (`A?BC`) and a trailing release byte (`A?`) stay literal, and
an escaped release byte does not suppress a following delimiter (`??*A`
splits into `??` and `A`). -/
theorem claim_C3 :
    (∀ (d e : Nat) (b : Bytes), splitWithEsc [d] [e] b = escSplitSpec d e b) ∧
      (∀ (d e x : Nat) (b : Bytes),
        splitWithEsc [d] [e] (e :: x :: b) =
          (e :: x :: (splitWithEsc [d] [e] b).headD []) ::
            (splitWithEsc [d] [e] b).tail) ∧
      (∀ d e : Nat, splitWithEsc [d] [e] [e] = [[e]]) ∧
      (splitWithEsc (bytesOf "*") (bytesOf "?") (bytesOf "NM1*AB?*CD") =
          [bytesOf "NM1", bytesOf "AB?*CD"] ∧
        escSplitSpec 42 63 (bytesOf "NM1*AB?*CD") = [bytesOf "NM1", bytesOf "AB?*CD"] ∧
        splitWithEsc (bytesOf "*") (bytesOf "?") (bytesOf "A?BC") = [bytesOf "A?BC"] ∧
        splitWithEsc (bytesOf "*") (bytesOf "?") (bytesOf "A?") = [bytesOf "A?"] ∧
        splitWithEsc (bytesOf "*") (bytesOf "?") (bytesOf "??*A") =
          [bytesOf "??", bytesOf "A"] ∧
        (Read rdRelease).err = none ∧
        (Read rdRelease).seg.Elems =
          [⟨0, 1, bytesOf "NM1"⟩, ⟨1, 1, bytesOf "AB?*CD"⟩]) :=
  ⟨fun d e b => splitWithEsc_eq_escSplitSpec d e b,
    fun d e x b => splitWithEsc_esc_step d e x b,
    fun d e => splitWithEsc_esc_last d e,
    rfl, rfl, rfl, rfl, rfl, rfl, rfl⟩

/-- C4: when `Read` has found a token, it fails with
`InvalidEDI("missing segment name")` exactly when the processed token produced
no elements or the first element's data is empty; otherwise the returned
segment's name is the first element's data. -/
theorem claim_C4 (r : Reader) (t : Bytes)
    (ht : (readLoop r.tokens r.runeBegin r.runeEnd).tok = some t) :
    ((Read r).err = some (GoError.invalidEDI "missing segment name") ↔
      ((readToken r t r.rawSeg).seg.Elems = [] ∨
        ∃ e0 l, (readToken r t r.rawSeg).seg.Elems = e0 :: l ∧ e0.Data = [])) ∧
    ((Read r).err = none →
      ∃ e0 l, (readToken r t r.rawSeg).seg.Elems = e0 :: l ∧
        (Read r).seg.Name = e0.Data) := by
  have herrtok : (Read r).err = (readToken r t r.rawSeg).err := by
    cases he : (readToken r t r.rawSeg).err with
    | none => rw [(Read_tok_ok r t ht he).2.1]
    | some e => rw [(Read_tok_err r t e ht he).2]
  constructor
  · rw [herrtok]
    exact readToken_missing_iff r t r.rawSeg
  · intro h
    have he : (readToken r t r.rawSeg).err = none := by rw [← herrtok, h]
    obtain ⟨e0, l, helems, _, hname, _⟩ := readToken_success r t r.rawSeg he
    exact ⟨e0, l, helems, by rw [(Read_tok_ok r t ht he).1]; exact hname⟩

/-- C4 witness: instantiated on the reader over `ISA*00*x~`, whose scan loop
finds that token. -/
theorem claim_C4_witness :
    (readLoop rdIsa00.tokens rdIsa00.runeBegin rdIsa00.runeEnd).tok =
        some (bytesOf "ISA*00*x~") ∧
      (((Read rdIsa00).err = some (GoError.invalidEDI "missing segment name") ↔
        ((readToken rdIsa00 (bytesOf "ISA*00*x~") rdIsa00.rawSeg).seg.Elems = [] ∨
          ∃ e0 l, (readToken rdIsa00 (bytesOf "ISA*00*x~") rdIsa00.rawSeg).seg.Elems =
            e0 :: l ∧ e0.Data = [])) ∧
      ((Read rdIsa00).err = none →
        ∃ e0 l, (readToken rdIsa00 (bytesOf "ISA*00*x~") rdIsa00.rawSeg).seg.Elems =
          e0 :: l ∧ (Read rdIsa00).seg.Name = e0.Data)) :=
  ⟨rfl, claim_C4 rdIsa00 (bytesOf "ISA*00*x~") rfl⟩

/-- C5: contrary to the contract, the source's `readToken` does emit output on
every successful segment read — the JSON-marshaled segment is printed — as
witnessed on input `ISA*1~`.  (The claim that the reader emits no output is
the spec's stated intent; the debug print in the source contradicts it.) -/
theorem claim_C5 :
    (Read rdIsa).err = none ∧ (Read rdIsa).printed = [(Read rdIsa).seg] :=
  ⟨rfl, rfl⟩

/-- C6 (amended): scanner-level failures are sticky — once the scanner is
exhausted and reports an I/O error, every `Read` call, now and after any
number of further calls, returns the same wrapped `InvalidEDI` error and
leaves the scanner in the same failed state.  (`InvalidEDI` errors produced by
`readToken`, such as the missing-segment-name error, are not sticky: the next
`Read` processes the next token.) -/
theorem claim_C6 (r : Reader) (e : String) (htok : r.tokens = [])
    (herr : r.scanErr = some e) :
    ∀ n, (Read (readN n r)).err =
        some (GoError.invalidEDI ("cannot read segment, err: " ++ e)) ∧
      (readN n r).tokens = [] ∧ (readN n r).scanErr = some e := by
  have step : ∀ r2 : Reader, r2.tokens = [] → r2.scanErr = some e →
      (Read r2).err = some (GoError.invalidEDI ("cannot read segment, err: " ++ e)) ∧
        (Read r2).state.tokens = [] ∧ (Read r2).state.scanErr = some e := by
    intro r2 h1 h2
    have ht : (readLoop r2.tokens r2.runeBegin r2.runeEnd).tok = none := by
      rw [h1]; rfl
    have hrest : (readLoop r2.tokens r2.runeBegin r2.runeEnd).rest = [] := by
      rw [h1]; rfl
    obtain ⟨_, herr2, htk, hsc⟩ := Read_scanErr r2 e ht h2
    exact ⟨herr2, by rw [htk, hrest], hsc⟩
  intro n
  induction n with
  | zero => exact ⟨(step r htok herr).1, htok, herr⟩
  | succ n ih =>
    have h := step (readN n r) ih.2.1 ih.2.2
    exact ⟨(step ((Read (readN n r)).state) h.2.1 h.2.2).1, h.2.1, h.2.2⟩

/-- C6 counterexample: on input `*A~B~`, the first `Read` returns the fatal
`InvalidEDI("missing segment name")` error, but the second `Read` does not
return the same error — it succeeds — refuting the claim that once a `Read`
returns a fatal error every subsequent `Read` returns the same error. -/
theorem claim_C6_counterexample :
    (Read rdBadThenGood).err = some (GoError.invalidEDI "missing segment name") ∧
      (Read (Read rdBadThenGood).state).err = none :=
  ⟨rfl, rfl⟩

/-- C6 witness: the sticky scanner failure instantiated on a reader whose
scanner failed with "io failure", checked after two further reads. -/
theorem claim_C6_witness :
    rdScanErr.tokens = [] ∧ rdScanErr.scanErr = some "io failure" ∧
      ((Read (readN 2 rdScanErr)).err =
          some (GoError.invalidEDI "cannot read segment, err: io failure") ∧
        (readN 2 rdScanErr).tokens = [] ∧ (readN 2 rdScanErr).scanErr = some "io failure") :=
  ⟨rfl, rfl, claim_C6 rdScanErr "io failure" rfl rfl 2⟩

/-- C7: a scanner token consisting solely of CR/LF bytes is skipped by `Read`
— the call behaves exactly as if the reader had already consumed that token,
with `runeBegin` moved to the old `runeEnd` and `runeEnd` advanced by the
token's rune count, and in particular the segment count is not advanced for
the skipped token — and when only CRLF-only tokens remain and the scanner is
clean, `Read` returns EOF. -/
theorem claim_C7 :
    (∀ (r : Reader) (b : Bytes) (rest : List Bytes) (c : Nat),
        r.tokens = b :: rest → runeCountAndHasOnlyCRLF b = (c, true) →
        Read r = Read { r with tokens := rest, runeBegin := r.runeEnd,
                               runeEnd := r.runeEnd + c }) ∧
      ∀ r : Reader, (∀ b ∈ r.tokens, (runeCountAndHasOnlyCRLF b).2 = true) →
        r.scanErr = none → (Read r).err = some GoError.eof := by
  constructor
  · intro r b rest c htok hcrlf
    have hloop : readLoop r.tokens r.runeBegin r.runeEnd =
        readLoop rest r.runeEnd (r.runeEnd + c) := by
      rw [htok]
      simp [readLoop, hcrlf]
    unfold Read
    rw [hloop]
    rfl
  · intro r hall hscan
    have hloop : ∀ (ts : List Bytes) (rb re : Nat),
        (∀ b ∈ ts, (runeCountAndHasOnlyCRLF b).2 = true) →
        (readLoop ts rb re).tok = none := by
      intro ts
      induction ts with
      | nil => intro rb re _; rfl
      | cons b rest ih =>
        intro rb re hall2
        have hb : (runeCountAndHasOnlyCRLF b).2 = true := hall2 b (by simp)
        simp only [readLoop, hb, if_true]
        exact ih _ _ (fun x hx => hall2 x (by simp [hx]))
    exact (Read_eof r (hloop _ _ _ hall) hscan).2

/-- C7 witness: the skip equation instantiated on a reader whose next token is
`\r\n` (2 runes), and the EOF clause on a reader with only a `\r\n` token
left. -/
theorem claim_C7_witness :
    rdCrlfMid.tokens = bytesOf "\r\n" :: [bytesOf "B~"] ∧
      runeCountAndHasOnlyCRLF (bytesOf "\r\n") = (2, true) ∧
      Read rdCrlfMid = Read { rdCrlfMid with tokens := [bytesOf "B~"],
                                              runeBegin := rdCrlfMid.runeEnd,
                                              runeEnd := rdCrlfMid.runeEnd + 2 } ∧
      (∀ b ∈ rdCrlfOnly.tokens, (runeCountAndHasOnlyCRLF b).2 = true) ∧
      rdCrlfOnly.scanErr = none ∧ (Read rdCrlfOnly).err = some GoError.eof :=
  ⟨rfl, rfl, claim_C7.1 rdCrlfMid (bytesOf "\r\n") [bytesOf "B~"] 2 rfl rfl,
    by decide, rfl, claim_C7.2 rdCrlfOnly (by decide) rfl⟩

/-- C8: when the configured segment delimiter is exactly `"\n"`, a token
ending in `\r\n` is processed exactly like the same token ending in a bare
`\n` — the trailing `\r` is dropped before element splitting — and on input
`ISA*1~\r\n` with segment delimiter `~` exactly one segment is produced,
followed by EOF with no error. -/
theorem claim_C8 :
    (∀ (r : Reader) (t : Bytes) (s : RawSeg), r.segDelim = [10] →
        t.getLast? ≠ some 13 →
        (readToken r (t ++ [13, 10]) s).seg.Elems = (readToken r (t ++ [10]) s).seg.Elems ∧
        (readToken r (t ++ [13, 10]) s).seg.Name = (readToken r (t ++ [10]) s).seg.Name ∧
        (readToken r (t ++ [13, 10]) s).err = (readToken r (t ++ [10]) s).err) ∧
      ((Read rdCrlf).err = none ∧ (Read rdCrlf).seg.Name = bytesOf "ISA" ∧
        (Read (Read rdCrlf).state).err = some GoError.eof) := by
  constructor
  · intro r t s hseg hlast
    have htake1 : (t ++ [13, 10]).take ((t ++ [13, 10]).length - [10].length) =
        t ++ [13] := by
      have hlen : (t ++ [13, 10]).length - [10].length = t.length + 1 := by simp
      rw [hlen, List.take_append]
      rfl
    have h1 : noSegDelimOf r (t ++ [13, 10]) = t := by
      unfold noSegDelimOf
      rw [hseg, htake1, if_pos ⟨rfl, List.getLast?_concat t⟩, List.dropLast_concat]
    have htake2 : (t ++ [10]).take ((t ++ [10]).length - [10].length) = t := by
      have hlen : (t ++ [10]).length - [10].length = t.length := by simp
      rw [hlen]
      exact List.take_left t [10]
    have h2 : noSegDelimOf r (t ++ [10]) = t := by
      unfold noSegDelimOf
      rw [hseg, htake2, if_neg (fun hcontra => hlast hcontra.2)]
    simp only [readToken]
    rw [h1, h2]
    cases hel : rawElemsOf r t with
    | nil => simp
    | cons e0 l =>
      by_cases hd : e0.Data = []
      · simp [hd]
      · simp [hd]
  · exact ⟨rfl, rfl, rfl⟩

/-- C8 witness: the CRLF-drop equation instantiated on the bare-LF reader and
the token body `ISA*1`. -/
theorem claim_C8_witness :
    rdLf.segDelim = [10] ∧ (bytesOf "ISA*1").getLast? ≠ some 13 ∧
      ((readToken rdLf (bytesOf "ISA*1" ++ [13, 10]) RawSeg.zero).seg.Elems =
          (readToken rdLf (bytesOf "ISA*1" ++ [10]) RawSeg.zero).seg.Elems ∧
        (readToken rdLf (bytesOf "ISA*1" ++ [13, 10]) RawSeg.zero).seg.Name =
          (readToken rdLf (bytesOf "ISA*1" ++ [10]) RawSeg.zero).seg.Name ∧
        (readToken rdLf (bytesOf "ISA*1" ++ [13, 10]) RawSeg.zero).err =
          (readToken rdLf (bytesOf "ISA*1" ++ [10]) RawSeg.zero).err) :=
  ⟨rfl, by decide, claim_C8.1 rdLf (bytesOf "ISA*1") RawSeg.zero rfl (by decide)⟩

/-- C9: whenever `Read` returns an error (including `io.EOF`), the returned
`RawSeg` is the zero value — never a partially filled segment. -/
theorem claim_C9 (r : Reader) (e : GoError) (h : (Read r).err = some e) :
    (Read r).seg = RawSeg.zero := by
  cases ht : (readLoop r.tokens r.runeBegin r.runeEnd).tok with
  | none =>
    cases he : r.scanErr with
    | none => exact (Read_eof r ht he).1
    | some s => exact (Read_scanErr r s ht he).1
  | some t =>
    cases he : (readToken r t r.rawSeg).err with
    | none => rw [(Read_tok_ok r t ht he).2.1] at h; cases h
    | some e2 => exact (Read_tok_err r t e2 ht he).1

/-- C9 witness: on empty input `Read` returns EOF and the zero segment. -/
theorem claim_C9_witness :
    (Read rdEmpty).err = some GoError.eof ∧ (Read rdEmpty).seg = RawSeg.zero :=
  ⟨rfl, claim_C9 rdEmpty GoError.eof rfl⟩

/-- C10: every call to `Read` increments the segment count by exactly one,
whatever the outcome (success, EOF, or error), so after `n` calls on a fresh
reader `SegCount` equals `n`, the number of `Read` calls made. -/
theorem claim_C10 :
    (∀ r : Reader, SegCount (Read r).state = SegCount r + 1) ∧
      ∀ (decl : FileDecl) (input : Bytes) (n : Nat),
        SegCount (readN n (NewNonValidatingReader decl input)) = n := by
  refine ⟨fun r => Read_segCount r, ?_⟩
  intro decl input n
  induction n with
  | zero => rfl
  | succ n ih =>
    simp only [readN]
    rw [show SegCount (Read (readN n (NewNonValidatingReader decl input))).state =
        SegCount (readN n (NewNonValidatingReader decl input)) + 1 from
      Read_segCount _, ih]

end EdiReader
